import Mathlib

/-!
Verification of the AstroCM Git content-abstraction layer.

This file gives a shallow embedding of the provider-agnostic Git repository
adapter code (services/baseGitService.ts, the GitHub adapter and the shared
Gitea/Gogs adapter) and proves properties of the embedded definitions.

Conventions of the embedding:
  - JS strings are embedded as Lean `String`; the JS string methods used by
    the source (split, toLowerCase, startsWith, endsWith, findIndex) are
    embedded as executable functions over the underlying character lists,
    because that is their JS semantics (per-code-unit operations).
  - Asynchronous network calls are embedded as explicit oracles: a function
    or value of `Except` type standing for the settled promise.  Thrown
    exceptions become `Except.error`.
  - The remote backend (GitHub / Gitea contents and tree endpoints) is not
    part of the repository source; where a claim depends on backend
    behaviour, the backend is modelled from the spec and the definition says
    so in its doc string.
  - `Array.prototype.sort` is embedded as a stable sort
    (`List.insertionSort`); `localeCompare` is environment dependent
    (locale data), so it is a parameter `lc` of the sorting definitions.
-/

namespace AstroCM

/-! ### Embeddings of the JS string primitives used by the source -/

/-- Embedding of JS `String.prototype.toLowerCase` for the ASCII strings the
source applies it to: per-character lowercasing. -/
def jsToLower (s : String) : String :=
  String.mk (s.data.map Char.toLower)

/-- Embedding of JS `String.prototype.startsWith`: character-list prefix. -/
def jsStartsWith (s pre : String) : Bool :=
  pre.data.isPrefixOf s.data

/-- Embedding of JS `String.prototype.endsWith`: character-list suffix. -/
def jsEndsWith (s suf : String) : Bool :=
  suf.data.isSuffixOf s.data

/-- Splits a character list at every occurrence of `sep` (the separator is
dropped); the result always has at least one group, like JS `split`. -/
def splitOnChar (sep : Char) : List Char → List (List Char)
  | [] => [[]]
  | c :: cs =>
    if c = sep then [] :: splitOnChar sep cs
    else
      match splitOnChar sep cs with
      | g :: gs => (c :: g) :: gs
      | [] => [[c]]

/-- Embedding of JS `String.prototype.split` with a one-character separator,
as the source always uses it (`a.split(\x27/\x27)`). -/
def jsSplit (s : String) (sep : Char) : List String :=
  (splitOnChar sep s.data).map String.mk

/-- Embedding of JS `Array.prototype.findIndex`: index of the first element
satisfying the predicate, `none` for the JS result `-1`. -/
def jsFindIndex (p : String → Bool) : List String → Option Nat
  | [] => none
  | x :: xs => if p x then some 0 else (jsFindIndex p xs).map Nat.succ

/-- Insertion into a JS `Set` in order, skipping elements already seen. -/
def jsSetDedupGo (seen : List String) : List String → List String
  | [] => []
  | x :: xs =>
    if x ∈ seen then jsSetDedupGo seen xs
    else x :: jsSetDedupGo (x :: seen) xs

/-- Embedding of the JS `Set` insertion-order deduplication performed by
`Array.from(new Set(...))`: keeps the first occurrence of each element. -/
def jsSetDedup (l : List String) : List String := jsSetDedupGo [] l

/-- Path of a child entry, as the backends build `item.path` from a parent
path and an entry name (repository-relative, no leading slash). -/
def joinPath (parent name : String) : String :=
  if parent = "" then name else parent ++ "/" ++ name

/-! ### Data shapes (types.ts) -/

/-- The `type` discriminator of a `ContentInfo` / `RepoTreeInfo` entry. -/
inductive EntryKind where
  | file
  | dir
deriving DecidableEq, Repr

/-- One entry of a directory listing (`ContentInfo` in types.ts). -/
structure ContentInfo where
  name : String
  path : String
  type : EntryKind
  sha : String
  size : Nat
deriving DecidableEq, Repr

/-- One entry of a (recursive) file listing (`RepoTreeInfo` in types.ts). -/
structure RepoTreeInfo where
  name : String
  path : String
  type : EntryKind
  sha : String
  size : Nat
deriving DecidableEq, Repr

/-- One entry of a recursive git-tree response (`GET .../git/trees/...`). -/
structure TreeItem where
  path : String
  type : String
  sha : String
  size : Nat
deriving DecidableEq, Repr

/-- A recursive git-tree response body: the flat entry list and the
server-side `truncated` flag. -/
structure TreeResponse where
  tree : List TreeItem
  truncated : Bool
deriving DecidableEq, Repr

/-- Repository metadata (`GithubRepo` in types.ts); only the field the
adapters read is modelled. -/
structure RepoInfo where
  default_branch : String
deriving DecidableEq, Repr

/-- Error kinds of the adapter layer (spec section 7 taxonomy).  The source
throws `Error` objects; the kinds below classify them. -/
inductive GitErr where
  | conflict
  | notFound
  | unauthorized
  | apiError (status : Nat)
  | parseError
deriving DecidableEq, Repr

/-! ### BaseGitService: directory discovery scanner

The scanner only consumes directory listings, so repository state is
embedded as a rose tree of named files and directories; `getRepoContents p`
on the backend corresponds to reading the child list of the node at `p`. -/

/-- A file-system node as listed by the contents endpoint. -/
inductive FsEntry where
  | file (name : String)
  | dir (name : String) (children : List FsEntry)

/-- BaseGitService.ignoredDirs (baseGitService.ts line 8). -/
def ignoredDirs : List String :=
  ["node_modules", ".git", ".github", "dist", "build", "vendor", ".vscode", "pages", "page"]

/-- True at a file child whose name passes the file check (the
`item.type === \x27file\x27 && fileCheck(item.name)` test of the scan loop). -/
def isMatchingFile (fileCheck : String → Bool) : FsEntry → Bool
  | .file n => fileCheck n
  | .dir _ _ => false

/-- The subdirectories the scan recurses into: directory children whose
lowercased name is not in the ignore set (baseGitService.ts line 74),
accumulated in listing order. -/
def scanSubDirs : List FsEntry → List (String × List FsEntry)
  | [] => []
  | .file _ :: es => scanSubDirs es
  | .dir n cs :: es =>
    if ignoredDirs.contains (jsToLower n) then scanSubDirs es
    else (n, cs) :: scanSubDirs es

/-- Embedding of `BaseGitService.scanDirectoryGeneric` (baseGitService.ts
lines 65-87).  `fuel` stands for `maxDepth - depth` (the source guard
`depth >= maxDepth` is `fuel = 0`); the result is the list of found
directory paths in discovery order (the source accumulates them in a `Set`,
which the callers deduplicate via `Array.from`).  The source adds `path`
only when it is truthy, i.e. a nonempty string. -/
def scanDir (fileCheck : String → Bool) : Nat → String → List FsEntry → List String
  | 0, _, _ => []
  | fuel + 1, path, children =>
    let hasMatchingFile := children.any (isMatchingFile fileCheck)
    (if hasMatchingFile && path != "" then [path] else []) ++
      (scanSubDirs children).flatMap fun nc =>
        scanDir fileCheck fuel (joinPath path nc.1) nc.2

/-- The comparator of `BaseGitService.sortPaths` (baseGitService.ts lines
50-61), returning the JS comparator number.  `lc` embeds
`String.prototype.localeCompare`, which depends on the host environment
locale and is therefore a parameter. -/
def pathCompare (lc : String → String → Int) (preferredNames : List String)
    (a b : String) : Int :=
  let aLastName := jsToLower (((jsSplit a '/').getLast?).getD "")
  let bLastName := jsToLower (((jsSplit b '/').getLast?).getD "")
  let aIsPreferred := preferredNames.contains aLastName
  let bIsPreferred := preferredNames.contains bLastName
  if aIsPreferred && !bIsPreferred then -1
  else if !aIsPreferred && bIsPreferred then 1
  else
    let aDepth : Int := (jsSplit a '/').length
    let bDepth : Int := (jsSplit b '/').length
    if aDepth ≠ bDepth then aDepth - bDepth else lc a b

/-- Embedding of `BaseGitService.sortPaths` (baseGitService.ts lines 48-63):
a stable sort by the comparator (JS `Array.prototype.sort` is stable). -/
def sortPaths (lc : String → String → Int) (paths : List String)
    (preferredNames : List String) : List String :=
  List.insertionSort (fun a b => pathCompare lc preferredNames a b ≤ 0) paths

/-- The content-file check of `scanForContentDirectories` (baseGitService.ts
line 91): the name ends in `.md` or `.mdx`. -/
def isMarkdownName (name : String) : Bool :=
  jsEndsWith name ".md" || jsEndsWith name ".mdx"

/-- Embedding of `BaseGitService.scanForContentDirectories` (baseGitService.ts
lines 89-94); the repository root listing is `root`. -/
def scanForContentDirectories (lc : String → String → Int)
    (root : List FsEntry) : List String :=
  let foundDirs := jsSetDedup (scanDir isMarkdownName 4 "" root)
  sortPaths lc foundDirs ["posts", "post", "blog", "content", "data", "articles"]

/-- The image-name check of `scanForImageDirectories`: embedding of the
test of `/\.(jpe?g|png|gif|webp|svg)$/i` on the file name. -/
def isImageName (name : String) : Bool :=
  let n := jsToLower name
  jsEndsWith n ".jpg" || jsEndsWith n ".jpeg" || jsEndsWith n ".png" ||
    jsEndsWith n ".gif" || jsEndsWith n ".webp" || jsEndsWith n ".svg"

/-- The promotion step of `scanForImageDirectories` (baseGitService.ts lines
101-105): find the first entry whose lowercased path is `public/images` and,
when it is not already first, splice it out and unshift it. -/
def promotePublicImages (sorted : List String) : List String :=
  match jsFindIndex (fun p => jsToLower p == "public/images") sorted with
  | none => sorted
  | some i =>
    if 0 < i then
      match sorted.get? i with
      | some x => x :: sorted.eraseIdx i
      | none => sorted
    else sorted

/-- Embedding of `BaseGitService.scanForImageDirectories` (baseGitService.ts
lines 96-107). -/
def scanForImageDirectories (lc : String → String → Int)
    (root : List FsEntry) : List String :=
  let foundDirs := jsSetDedup (scanDir isImageName 4 "" root)
  promotePublicImages
    (sortPaths lc foundDirs ["images", "assets", "static", "public"])

/-- Removes every directory entry whose lowercased name is in the ignore
set, at every level.  Used to state that the scan never reads the contents
of a pruned directory: the scan result is invariant under this removal. -/
def removeIgnored : List FsEntry → List FsEntry
  | [] => []
  | .file n :: es => .file n :: removeIgnored es
  | .dir n cs :: es =>
    if ignoredDirs.contains (jsToLower n) then removeIgnored es
    else .dir n (removeIgnored cs) :: removeIgnored es

/-- `DirHasDirectHit fc path children q` holds when `q` is the path of a
directory node of the tree rooted at the (path, children) listing that
directly contains at least one file whose name passes `fc`.  This is the
non-transitive hit property of spec section 4.4. -/
inductive DirHasDirectHit (fc : String → Bool) :
    String → List FsEntry → String → Prop where
  | here {path : String} {children : List FsEntry} {n : String} :
      FsEntry.file n ∈ children → fc n = true →
      DirHasDirectHit fc path children path
  | child {path : String} {children : List FsEntry} {n : String}
      {cs : List FsEntry} {q : String} :
      FsEntry.dir n cs ∈ children →
      DirHasDirectHit fc (joinPath path n) cs q →
      DirHasDirectHit fc path children q

/-! ### Text and transport encoding (github adapter lines 56-65 and 128-140)

`base64Encode` in the source UTF-8-encodes the string (`TextEncoder`),
turns the bytes into a binary string (`String.fromCharCode`) and applies
`btoa`; `getFileContent` applies `atob`, reads the code units back into
bytes (`charCodeAt`) and UTF-8-decodes them (`TextDecoder`).  Bytes are
embedded as `Nat` below 256, binary strings as `List Char`. -/

/-- The RFC 4648 base64 alphabet used by `btoa` / `atob`. -/
def base64Alphabet : List Char :=
  "ABCDEFGHIJKLMNOPQRSTUVWXYZabcdefghijklmnopqrstuvwxyz0123456789+/".data

/-- Character of a six-bit group. -/
def sixToChar (n : Nat) : Char := ((base64Alphabet.get? n).getD '=')

/-- Index of a character in the base64 alphabet (= 64 when absent). -/
def charToSix (c : Char) : Nat := base64Alphabet.findIdx (fun x => x == c)

/-- Base64 encoding of a byte list, exactly as `btoa` emits it: three bytes
per four characters, with `=` padding for a trailing one- or two-byte
group. -/
def b64EncodeBytes : List Nat → List Char
  | [] => []
  | [b1] => [sixToChar (b1 / 4), sixToChar (b1 % 4 * 16), '=', '=']
  | [b1, b2] =>
    [sixToChar (b1 / 4), sixToChar (b1 % 4 * 16 + b2 / 16), sixToChar (b2 % 16 * 4), '=']
  | b1 :: b2 :: b3 :: rest =>
    sixToChar (b1 / 4) :: sixToChar (b1 % 4 * 16 + b2 / 16) ::
      sixToChar (b2 % 16 * 4 + b3 / 64) :: sixToChar (b3 % 64) ::
      b64EncodeBytes rest

/-- Base64 decoding of a character list, as `atob` performs it: groups of
four characters, `=` padding allowed only at the very end; `none` embeds
the `InvalidCharacterError` thrown on malformed input. -/
def b64DecodeChars : List Char → Option (List Nat)
  | [] => some []
  | c1 :: c2 :: c3 :: c4 :: rest =>
    if rest = [] ∧ c4 = '=' then
      if c3 = '=' then
        if charToSix c1 < 64 ∧ charToSix c2 < 64 then
          some [charToSix c1 * 4 + charToSix c2 / 16]
        else none
      else
        if charToSix c1 < 64 ∧ charToSix c2 < 64 ∧ charToSix c3 < 64 then
          some [charToSix c1 * 4 + charToSix c2 / 16,
                charToSix c2 % 16 * 16 + charToSix c3 / 4]
        else none
    else
      if charToSix c1 < 64 ∧ charToSix c2 < 64 ∧ charToSix c3 < 64 ∧ charToSix c4 < 64 then
        match b64DecodeChars rest with
        | some bs =>
          some ((charToSix c1 * 4 + charToSix c2 / 16) ::
                (charToSix c2 % 16 * 16 + charToSix c3 / 4) ::
                (charToSix c3 % 4 * 64 + charToSix c4) :: bs)
        | none => none
      else none
  | _ => none

/-- UTF-8 encoding of one character (`TextEncoder` semantics). -/
def utf8EncodeChar (c : Char) : List Nat :=
  let n := c.toNat
  if n < 0x80 then [n]
  else if n < 0x800 then [0xC0 + n / 64, 0x80 + n % 64]
  else if n < 0x10000 then [0xE0 + n / 4096, 0x80 + n / 64 % 64, 0x80 + n % 64]
  else [0xF0 + n / 262144, 0x80 + n / 4096 % 64, 0x80 + n / 64 % 64, 0x80 + n % 64]

/-- UTF-8 encoding of a character list (`TextEncoder().encode`). -/
def utf8Encode (cs : List Char) : List Nat := cs.flatMap utf8EncodeChar

/-- Whether a byte is a UTF-8 continuation byte. -/
def isCont (b : Nat) : Bool := 0x80 ≤ b && b < 0xC0

mutual

/-- UTF-8 decoding of a byte list, per the WHATWG algorithm that
`TextDecoder(\x27utf-8\x27)` implements: rejects truncated sequences,
stray continuation bytes, overlong forms, surrogate encodings and values
above U+10FFFF (the two-, three- and four-byte sequences are handled by
the helpers below, one per lead-byte range).  `TextDecoder` in non-fatal
mode substitutes U+FFFD at such byte positions; the embedding returns
`none` there instead, so `some` results are exactly the clean
decodings. -/
def utf8Decode : List Nat → Option (List Char)
  | [] => some []
  | b :: bs =>
    if b < 0x80 then (utf8Decode bs).map (fun cs => Char.ofNat b :: cs)
    else if b < 0xC2 then none
    else if b < 0xE0 then utf8DecodeTail2 b bs
    else if b < 0xF0 then utf8DecodeTail3 b bs
    else if b < 0xF5 then utf8DecodeTail4 b bs
    else none

/-- A two-byte sequence: lead `b` in `C2..DF` plus one continuation. -/
def utf8DecodeTail2 (b : Nat) : List Nat → Option (List Char)
  | b2 :: bs2 =>
    if isCont b2 then
      (utf8Decode bs2).map (fun cs => Char.ofNat ((b - 0xC0) * 64 + (b2 - 0x80)) :: cs)
    else none
  | [] => none

/-- A three-byte sequence: lead `b` in `E0..EF` plus two continuations,
rejecting overlong values and surrogates. -/
def utf8DecodeTail3 (b : Nat) : List Nat → Option (List Char)
  | b2 :: b3 :: bs2 =>
    if isCont b2 ∧ isCont b3 ∧
        0x800 ≤ (b - 0xE0) * 4096 + (b2 - 0x80) * 64 + (b3 - 0x80) ∧
        ¬(0xD800 ≤ (b - 0xE0) * 4096 + (b2 - 0x80) * 64 + (b3 - 0x80) ∧
          (b - 0xE0) * 4096 + (b2 - 0x80) * 64 + (b3 - 0x80) < 0xE000) then
      (utf8Decode bs2).map
        (fun cs => Char.ofNat ((b - 0xE0) * 4096 + (b2 - 0x80) * 64 + (b3 - 0x80)) :: cs)
    else none
  | _ => none

/-- A four-byte sequence: lead `b` in `F0..F4` plus three continuations,
rejecting overlong values and values above U+10FFFF. -/
def utf8DecodeTail4 (b : Nat) : List Nat → Option (List Char)
  | b2 :: b3 :: b4 :: bs2 =>
    if isCont b2 ∧ isCont b3 ∧ isCont b4 ∧
        0x10000 ≤ (b - 0xF0) * 262144 + (b2 - 0x80) * 4096 + (b3 - 0x80) * 64 + (b4 - 0x80) ∧
        (b - 0xF0) * 262144 + (b2 - 0x80) * 4096 + (b3 - 0x80) * 64 + (b4 - 0x80) <
          0x110000 then
      (utf8Decode bs2).map
        (fun cs => Char.ofNat
          ((b - 0xF0) * 262144 + (b2 - 0x80) * 4096 + (b3 - 0x80) * 64 + (b4 - 0x80)) :: cs)
    else none
  | _ => none

end

/-- Bytes to a binary string, one code unit per byte: the
`String.fromCharCode` accumulation loop of `base64Encode`. -/
def bytesToBinary (bs : List Nat) : List Char := bs.map Char.ofNat

/-- Binary string back to bytes: the `charCodeAt` loop of
`getFileContent`. -/
def binaryToBytes (cs : List Char) : List Nat := cs.map Char.toNat

/-- Embedding of `base64Encode` (github adapter lines 56-65). -/
def base64Encode (s : String) : String :=
  String.mk (b64EncodeBytes (binaryToBytes (bytesToBinary (utf8Encode s.data))))

/-- The decoding performed by `getFileContent` on a base64 file body
(github adapter lines 130-137): `atob`, then `charCodeAt` into a byte
array, then `TextDecoder(\x27utf-8\x27)`. -/
def decodeBase64Utf8 (content : String) : Option String :=
  match b64DecodeChars content.data with
  | none => none
  | some bytes =>
    match utf8Decode (binaryToBytes (bytesToBinary bytes)) with
    | none => none
    | some cs => some (String.mk cs)

/-! ### Remote content store and the optimistic-concurrency write path

The remote repository state visible through the contents endpoint is an
association list from path to stored file.  The backend itself is not part
of this repository, so its endpoint semantics is modelled from the spec
(sections 3, 4.1 and 6). -/

/-- A stored remote file: its current content hash and base64 body. -/
structure RemoteFile where
  sha : String
  b64content : String
deriving DecidableEq, Repr

/-- Remote repository content state: path-addressed files. -/
abbrev Remote := List (String × RemoteFile)

/-- Modelled from the spec: the backend assigns a fresh content hash to
written content (the hash is an opaque token, Glossary). -/
def mkSha (content : String) : String := "sha-" ++ content

/-- Modelled from the spec (sections 3 and 6): `GET .../contents/path` for a
single file returns its metadata including `sha`, or status 404 when the
path does not exist. -/
def serverGetFile (st : Remote) (path : String) : Except GitErr RemoteFile :=
  match st.lookup path with
  | some f => .ok f
  | none => .error .notFound

/-- Modelled from the spec (section 3 invariant, sections 4.1 and 6): the
create/update contents endpoint.  With a `sha` in the body the write is a
compare-and-swap: it succeeds exactly when the path currently stores that
hash, and any other situation is a `Conflict`; without a `sha` it is a
create that conflicts when the path already exists. -/
def serverPutContents (st : Remote) (path content : String) (sha : Option String) :
    Except GitErr Remote :=
  match st.lookup path, sha with
  | some f, some s =>
    if s = f.sha then .ok ((path, ⟨mkSha content, content⟩) :: st.eraseP (fun kv => kv.1 == path))
    else .error .conflict
  | some _, none => .error .conflict
  | none, some _ => .error .conflict
  | none, none => .ok ((path, ⟨mkSha content, content⟩) :: st)

/-- Embedding of `GithubAdapter.getFileSha` (github adapter lines 76-86):
reads the current hash, mapping the 404 of a missing file to `undefined`
(`none`). -/
def getFileSha (st : Remote) (path : String) : Except GitErr (Option String) :=
  match serverGetFile st path with
  | .ok f => .ok (some f.sha)
  | .error .notFound => .ok none
  | .error e => .error e

/-- Embedding of `GithubAdapter.updateFileContent` (github adapter lines
167-174) run against the modelled backend: base64-encode the new content
and PUT it with the caller-supplied `sha`.  Returns the remote state after
the call (unchanged when the call fails) and the outcome. -/
def ghUpdateFileContent (st : Remote) (path newContent commitMessage sha : String) :
    Remote × Except GitErr Unit :=
  let content := base64Encode newContent
  let _ := commitMessage
  match serverPutContents st path content (some sha) with
  | .ok st2 => (st2, .ok ())
  | .error e => (st, .error e)

/-- The body content computed by `BaseGiteaAdapter.updateFileContent`
(gitea adapter line 165): a `data:` URL keeps its payload part, anything
else is base64-encoded.  (When a `data:` string has no comma the JS index
`[1]` is `undefined`; the embedding uses `""` there.) -/
def giteaUpdateBody (newContent : String) : String :=
  if jsStartsWith newContent "data:" then ((jsSplit newContent ',').get? 1).getD ""
  else base64Encode newContent

/-- Embedding of `BaseGiteaAdapter.updateFileContent` (gitea adapter lines
164-171) run against the modelled backend. -/
def giteaUpdateFileContent (st : Remote) (path newContent commitMessage sha : String) :
    Remote × Except GitErr Unit :=
  let content := giteaUpdateBody newContent
  let _ := commitMessage
  match serverPutContents st path content (some sha) with
  | .ok st2 => (st2, .ok ())
  | .error e => (st, .error e)

/-- Embedding of `GithubAdapter.createFileFromString` (github adapter lines
154-165) run against the modelled backend: read the current hash; when one
exists throw the already-exists error (kind `Conflict`) without issuing any
write; otherwise PUT the base64 content without a `sha`. -/
def ghCreateFileFromString (st : Remote) (path newContent commitMessage : String) :
    Remote × Except GitErr Unit :=
  let _ := commitMessage
  match getFileSha st path with
  | .error e => (st, .error e)
  | .ok (some _) => (st, .error .conflict)
  | .ok none =>
    match serverPutContents st path (base64Encode newContent) none with
    | .ok st2 => (st2, .ok ())
    | .error e => (st, .error e)

/-- Embedding of `BaseGiteaAdapter.createFileFromString` (gitea adapter
lines 151-162), identical to the GitHub one except that the write is a POST
(same modelled create semantics). -/
def giteaCreateFileFromString (st : Remote) (path newContent commitMessage : String) :
    Remote × Except GitErr Unit :=
  ghCreateFileFromString st path newContent commitMessage

/-! ### The request wrappers (github adapter lines 6-31, gitea adapter
lines 4-29)

A settled `fetch` is embedded as an `HttpResponse`: the HTTP status and the
result of `response.json()` (`Except.error` when the body fails to parse).
The wrappers return the list of window events dispatched during the call
together with the outcome; a thrown `Error` is `Except.error`. -/

/-- A settled HTTP response: status plus the `response.json()` outcome. -/
structure HttpResponse (T : Type) where
  status : Nat
  jsonBody : Except Unit T

/-- Embedding of `Response.ok`: status in the 2xx range. -/
def responseOk (status : Nat) : Bool := 200 ≤ status && status < 300

/-- Embedding of `makeRequest` of the GitHub adapter (lines 6-31): on 401
dispatch the `auth-error` window event and throw; on any other non-ok
status throw an API error; on 204/201 (or 200 for DELETE) parse the body
with an empty-object fallback; otherwise parse the body. -/
def ghMakeRequest {T : Type} (resp : HttpResponse T) (method : String) (emptyBody : T) :
    List String × Except GitErr T :=
  if resp.status = 401 then (["auth-error"], .error .unauthorized)
  else if !responseOk resp.status then ([], .error (.apiError resp.status))
  else if resp.status = 204 || resp.status = 201 || (resp.status = 200 && method == "DELETE") then
    ([], .ok (match resp.jsonBody with | .ok v => v | .error _ => emptyBody))
  else
    ([], match resp.jsonBody with | .ok v => .ok v | .error _ => .error .parseError)

/-- Embedding of `makeGiteaRequest` (gitea adapter lines 4-29); identical to
the GitHub wrapper except that the empty-body fallback also applies to a
200 response of a PUT. -/
def giteaMakeRequest {T : Type} (resp : HttpResponse T) (method : String) (emptyBody : T) :
    List String × Except GitErr T :=
  if resp.status = 401 then (["auth-error"], .error .unauthorized)
  else if !responseOk resp.status then ([], .error (.apiError resp.status))
  else if resp.status = 204 || resp.status = 201 ||
      (resp.status = 200 && (method == "DELETE" || method == "PUT")) then
    ([], .ok (match resp.jsonBody with | .ok v => v | .error _ => emptyBody))
  else
    ([], match resp.jsonBody with | .ok v => .ok v | .error _ => .error .parseError)

/-! ### Tree listing: fast path and fallback (github adapter lines 97-126,
gitea adapter lines 90-116, baseGitService.ts lines 30-46) -/

/-- Mapping of a contents entry to a listing entry, as
`BaseGitService.listFiles` does (baseGitService.ts lines 35-41). -/
def toRepoTreeInfo (item : ContentInfo) : RepoTreeInfo :=
  ⟨item.name, item.path, item.type, item.sha, item.size⟩

/-- Embedding of `BaseGitService.listFiles` (baseGitService.ts lines
30-46): map the shallow contents listing, returning an empty list (with a
console warning) when it fails.  First component: console messages. -/
def baseListFiles (contentsRes : Except GitErr (List ContentInfo)) :
    List String × List RepoTreeInfo :=
  match contentsRes with
  | .ok contents => ([], contents.map toRepoTreeInfo)
  | .error _ => (["listFiles failed, returning empty list"], [])

/-- The path normalization of the fast path (github adapter line 111):
ensure a trailing slash on a nonempty scope path. -/
def normalizeScopePath (path : String) : String :=
  if path != "" then (if jsEndsWith path "/" then path else path ++ "/") else ""

/-- The fast-path response processing (github adapter lines 113-121): keep
blob entries inside the scope and map them to file entries. -/
def processTree (path : String) (resp : TreeResponse) : List RepoTreeInfo :=
  let normalizedPath := normalizeScopePath path
  (resp.tree.filter fun item =>
      item.type == "blob" && (normalizedPath == "" || jsStartsWith item.path normalizedPath)).map
    fun item =>
      ⟨((jsSplit item.path '/').getLast?).getD "", item.path, .file, item.sha, item.size⟩

/-- The truncation console warning of the GitHub fast path (line 107). -/
def ghTruncWarning : String :=
  "Tree response truncated. Some files may be missing (limit is usually 100k)."

/-- Embedding of `GithubAdapter.listFiles` (github adapter lines 97-126).
Oracles: `detailsRes` for `getRepoDetails`, `treeOf branch` for the
recursive-tree fetch, `contentsRes` for the `getRepoContents` call of the
fallback.  First component: console messages. -/
def ghListFiles (path : String) (detailsRes : Except GitErr RepoInfo)
    (treeOf : String → Except GitErr TreeResponse)
    (contentsRes : Except GitErr (List ContentInfo)) :
    List String × List RepoTreeInfo :=
  match detailsRes with
  | .error _ =>
    let wl := baseListFiles contentsRes
    ("Tree API failed, falling back to contents API" :: wl.1, wl.2)
  | .ok repo =>
    match treeOf repo.default_branch with
    | .error _ =>
      let wl := baseListFiles contentsRes
      ("Tree API failed, falling back to contents API" :: wl.1, wl.2)
    | .ok resp =>
      ((if resp.truncated then [ghTruncWarning] else []), processTree path resp)

/-- Embedding of `BaseGiteaAdapter.listFiles` (gitea adapter lines 90-116);
same strategy, with the shorter console messages of that file. -/
def giteaListFiles (path : String) (detailsRes : Except GitErr RepoInfo)
    (treeOf : String → Except GitErr TreeResponse)
    (contentsRes : Except GitErr (List ContentInfo)) :
    List String × List RepoTreeInfo :=
  match detailsRes with
  | .error _ =>
    let wl := baseListFiles contentsRes
    ("Tree API failed, falling back" :: wl.1, wl.2)
  | .ok repo =>
    match treeOf repo.default_branch with
    | .error _ =>
      let wl := baseListFiles contentsRes
      ("Tree API failed, falling back" :: wl.1, wl.2)
    | .ok resp =>
      ((if resp.truncated then ["Tree response truncated."] else []), processTree path resp)

/-! ### A repository file set and its two listing views (for the fast-path
versus fallback comparison)

Here a repository is the set of its file paths, each given as a list of
path segments, and the backend responses are derived from it. -/

/-- A repository as the list of its files, each a segment path. -/
abbrev RepoFiles := List (List String)

/-- Joins path segments with slashes, as the backends render entry paths. -/
def joinSegs : List String → String
  | [] => ""
  | [s] => s
  | s :: t :: rest => s ++ "/" ++ joinSegs (t :: rest)

/-- A well-formed path segment: nonempty and slash-free (backend entry
names never contain the path separator). -/
def goodSeg (s : String) : Prop := s ≠ "" ∧ '/' ∉ s.data

/-- A well-formed file path: a nonempty list of well-formed segments. -/
def wfFile (segs : List String) : Prop := segs ≠ [] ∧ ∀ s ∈ segs, goodSeg s

/-- A well-formed repository file set. -/
def wfRepo (repo : RepoFiles) : Prop := ∀ segs ∈ repo, wfFile segs

instance (s : String) : Decidable (goodSeg s) :=
  inferInstanceAs (Decidable (s ≠ "" ∧ '/' ∉ s.data))

instance (segs : List String) : Decidable (wfFile segs) :=
  inferInstanceAs (Decidable (segs ≠ [] ∧ ∀ s ∈ segs, goodSeg s))

instance (repo : RepoFiles) : Decidable (wfRepo repo) :=
  inferInstanceAs (Decidable (∀ segs ∈ repo, wfFile segs))

/-- Modelled from the spec (section 6): the recursive tree endpoint
response derived from the repository file set, one blob entry per file,
not truncated. -/
def treeOfRepo (repo : RepoFiles) : TreeResponse :=
  ⟨repo.map (fun segs => ⟨joinSegs segs, "blob", mkSha (joinSegs segs), 0⟩), false⟩

/-- The segments of `segs` below directory `p`, when `p` is a prefix. -/
def stripSegs (p segs : List String) : Option (List String) :=
  if p.isPrefixOf segs then some (segs.drop p.length) else none

/-- Modelled from the spec (sections 3 and 6): the shallow contents listing
of directory `p` derived from the repository file set: the files directly
in `p`, and one `dir` entry per immediate subdirectory (a directory exists
exactly where some file lies below it). -/
def contentsOfRepo (repo : RepoFiles) (p : List String) : List ContentInfo :=
  let fileEntries := repo.filterMap fun segs =>
    match stripSegs p segs with
    | some [n] => some ⟨n, joinSegs segs, .file, mkSha (joinSegs segs), 0⟩
    | _ => none
  let dirNames := jsSetDedup (repo.filterMap fun segs =>
    match stripSegs p segs with
    | some (n :: _ :: _) => some n
    | _ => none)
  fileEntries ++ dirNames.map fun n => ⟨n, joinSegs (p ++ [n]), .dir, "", 0⟩

/-- `GithubAdapter.listFiles` on directory `p` when the fast path works:
the recursive tree fetch succeeds with the derived tree response. -/
def fastListFiles (repo : RepoFiles) (p : List String) : List RepoTreeInfo :=
  (ghListFiles (joinSegs p) (.ok ⟨"main"⟩) (fun _ => .ok (treeOfRepo repo))
    (.ok (contentsOfRepo repo p))).2

/-- `GithubAdapter.listFiles` on directory `p` when the fast path fails and
the adapter falls back to the shallow contents listing. -/
def fallbackListFiles (repo : RepoFiles) (p : List String) : List RepoTreeInfo :=
  (ghListFiles (joinSegs p) (.error (.apiError 500)) (fun _ => .error (.apiError 500))
    (.ok (contentsOfRepo repo p))).2

/-- The paths of the file entries of a listing result. -/
def filePaths (items : List RepoTreeInfo) : List String :=
  (items.filter fun it => it.type == EntryKind.file).map fun it => it.path

/-! ### Production-URL sniffer (baseGitService.ts lines 109-136)

The two regular expressions of the source are implemented as deterministic
matchers over character lists (for these patterns the regex engine never
needs to backtrack: every quantified class is disjoint from what follows
it).  `\s` is embedded as the ASCII whitespace characters. -/

/-- The single-quote character, written by code point. -/
def quoteChar : Char := Char.ofNat 39

/-- Embedding of the regex class `\s` (ASCII part). -/
def isJsWs (c : Char) : Bool := c == ' ' || c == '\t' || c == '\n' || c == '\r'

/-- Either quote character, the class `[\x27"]`. -/
def isQuote (c : Char) : Bool := c == quoteChar || c == '"'

/-- Consumes a literal character sequence. -/
def dropLit (lit l : List Char) : Option (List Char) :=
  if lit.isPrefixOf l then some (l.drop lit.length) else none

/-- Matches the capture group `(https?:\/\/[^X]+)` where `stop` is the
excluded character class `X`; returns the captured characters and the
remaining input. -/
def matchUrlCore (stop : Char → Bool) (l : List Char) : Option (List Char × List Char) := do
  let l1 ← dropLit "http".data l
  let sPart : List Char := match l1 with | 's' :: _ => ['s'] | _ => []
  let l2 := l1.drop sPart.length
  let l3 ← dropLit "://".data l2
  let body := l3.takeWhile (fun c => !stop c)
  if body = [] then none
  else some ("http".data ++ sPart ++ "://".data ++ body, l3.drop body.length)

/-- Matches `site\s*:\s*[\x27"](https?:\/\/[^\x27"]+)[\x27"]` at the head
of the input (the `jsSiteRegex` of the source, line 110). -/
def matchJsSiteAt (l : List Char) : Option (List Char) := do
  let l1 ← dropLit "site".data l
  let l2 := l1.dropWhile isJsWs
  let l3 ← dropLit [':'] l2
  let l4 := l3.dropWhile isJsWs
  match l4 with
  | q :: l5 =>
    if isQuote q then do
      let ur ← matchUrlCore isQuote l5
      match ur.2 with
      | r :: _ => if isQuote r then some ur.1 else none
      | [] => none
    else none
  | [] => none

/-- First-match scan over all start positions, as an unanchored regex
searches. -/
def findFirstMatchPos (f : List Char → Option (List Char)) : List Char → Option (List Char)
  | [] => f []
  | l@(_ :: t) =>
    match f l with
    | some r => some r
    | none => findFirstMatchPos f t

/-- Embedding of `content.match(jsSiteRegex)` returning the capture. -/
def jsSiteMatch (content : String) : Option String :=
  (findFirstMatchPos matchJsSiteAt content.data).map String.mk

/-- Matches the `yamlSiteRegex` of the source (line 111) on one line:
`^\s*(?:site|url)\s*:\s*[\x27"]?(https?:\/\/[^\x27"\s]+)[\x27"]?` (the `^`
anchor with the `m` flag restricts match starts to line starts; `\s` is
embedded line-locally). -/
def matchYamlSiteLine (line : List Char) : Option (List Char) := do
  let l1 := line.dropWhile isJsWs
  let l2 ← match dropLit "site".data l1 with
    | some r => some r
    | none => dropLit "url".data l1
  let l3 := l2.dropWhile isJsWs
  let l4 ← dropLit [':'] l3
  let l5 := l4.dropWhile isJsWs
  let l6 := match l5 with
    | c :: t => if isQuote c then t else l5
    | [] => l5
  let ur ← matchUrlCore (fun c => isQuote c || isJsWs c) l6
  some ur.1

/-- Embedding of `content.match(yamlSiteRegex)` returning the capture of
the first matching line. -/
def yamlSiteMatch (content : String) : Option String :=
  ((splitOnChar '\n' content.data).findSome? matchYamlSiteLine).map String.mk

/-- Which regex a scanned config file uses. -/
inductive RegexKind where
  | js
  | yaml
deriving DecidableEq, Repr

/-- One entry of the `filesToScan` list. -/
structure ScanFile where
  path : String
  kind : RegexKind
deriving DecidableEq, Repr

/-- The `filesToScan` list of `findProductionUrl` (baseGitService.ts lines
112-120), in source order. -/
def filesToScan : List ScanFile :=
  [⟨"astro.config.mjs", .js⟩, ⟨"astro.config.ts", .js⟩, ⟨"astro.config.js", .js⟩,
   ⟨"src/config.yaml", .yaml⟩, ⟨"src/config.yml", .yaml⟩,
   ⟨"src/config.ts", .js⟩, ⟨"src/config.js", .js⟩]

/-- Applies the regex of a scan entry. -/
def applyRegex : RegexKind → String → Option String
  | .js => jsSiteMatch
  | .yaml => yamlSiteMatch

/-- Embedding of `url.replace(/\/$/, \x27\x27)`: drop one trailing
slash. -/
def stripTrailingSlash (u : String) : String :=
  if jsEndsWith u "/" then String.mk u.data.dropLast else u

/-- The `package.json` branch of `findProductionUrl` (baseGitService.ts
lines 128-134).  `jsonHomepage` embeds `JSON.parse(content).homepage`
when it is a string (`none` both on a parse failure, which the source
swallows, and on an absent or non-string field). -/
def pkgHomepageResult (readFile : String → Except Unit String)
    (jsonHomepage : String → Option String) : Option String :=
  match readFile "package.json" with
  | .error _ => none
  | .ok content =>
    match jsonHomepage content with
    | some h => if jsStartsWith h "http" then some (stripTrailingSlash h) else none
    | none => none

/-- The scan loop of `findProductionUrl` (baseGitService.ts lines 121-127):
try each file in order, silently skipping a failed read, and return the
first stripped match. -/
def findProductionUrlLoop (readFile : String → Except Unit String) :
    List ScanFile → Option String
  | [] => none
  | f :: rest =>
    match readFile f.path with
    | .error _ => findProductionUrlLoop readFile rest
    | .ok content =>
      match applyRegex f.kind content with
      | some url => some (stripTrailingSlash url)
      | none => findProductionUrlLoop readFile rest

/-- Embedding of `BaseGitService.findProductionUrl` (baseGitService.ts
lines 109-136): the config-file scan, then the `package.json` homepage
field, then `null`.  Total: every file read failure is swallowed. -/
def findProductionUrl (readFile : String → Except Unit String)
    (jsonHomepage : String → Option String) : Option String :=
  match findProductionUrlLoop readFile filesToScan with
  | some u => some u
  | none => pkgHomepageResult readFile jsonHomepage

/-- Declarative description following the words of the spec (section 4.5):
the first URL found over the fixed priority list (a failed read yields
nothing for that file), with its trailing slash stripped; otherwise the
package manifest homepage; otherwise an explicit not-found. -/
def findProductionUrlSpec (readFile : String → Except Unit String)
    (jsonHomepage : String → Option String) : Option String :=
  match filesToScan.findSome? fun f =>
      ((readFile f.path).toOption.bind (applyRegex f.kind)).map stripTrailingSlash with
  | some u => some u
  | none => pkgHomepageResult readFile jsonHomepage

/-- Lexicographic code-point comparison of character lists, the comparator
number of a locale-free string comparison. -/
def cmpChars : List Char → List Char → Int
  | [], [] => 0
  | [], _ :: _ => -1
  | _ :: _, [] => 1
  | c :: cs, d :: ds =>
    if c.toNat < d.toNat then -1
    else if d.toNat < c.toNat then 1
    else cmpChars cs ds

/-- A definite instance of the `localeCompare` parameter, comparing by code
points (used to instantiate counterexamples and witnesses). -/
def lcCodepoint (a b : String) : Int := cmpChars a.data b.data

/-! ## Theorems -/

/-- C1: for every remote state, path and hash value, `updateFileContent`
(GitHub and Gitea adapters) succeeds if and only if the supplied hash
equals the current remote content hash at the path; with any other hash
value the operation yields `Conflict` and the remote state is unchanged. -/
theorem updateFile_succeeds_iff_hash_matches
    (st : Remote) (path newContent msg sha : String) :
    (((ghUpdateFileContent st path newContent msg sha).2 = .ok ()) ↔
      (st.lookup path).map RemoteFile.sha = some sha) ∧
    (((giteaUpdateFileContent st path newContent msg sha).2 = .ok ()) ↔
      (st.lookup path).map RemoteFile.sha = some sha) ∧
    ((st.lookup path).map RemoteFile.sha ≠ some sha →
      ghUpdateFileContent st path newContent msg sha = (st, .error .conflict) ∧
      giteaUpdateFileContent st path newContent msg sha = (st, .error .conflict)) := by
  cases h : st.lookup path with
  | none =>
    simp [ghUpdateFileContent, giteaUpdateFileContent, serverPutContents, h]
  | some f =>
    by_cases hs : sha = f.sha
    · subst hs
      simp [ghUpdateFileContent, giteaUpdateFileContent, serverPutContents, h]
    · simp [ghUpdateFileContent, giteaUpdateFileContent, serverPutContents, h, hs]
      exact fun h2 => absurd h2.symm hs

/-- Witness for C1 at a concrete remote state and a mismatched hash. -/
theorem updateFile_succeeds_iff_hash_matches_witness :
    (([("a.md", RemoteFile.mk "s1" "c")] : Remote).lookup "a.md").map RemoteFile.sha
        ≠ some "stale" ∧
    ghUpdateFileContent [("a.md", RemoteFile.mk "s1" "c")] "a.md" "x" "m" "stale" =
      ([("a.md", RemoteFile.mk "s1" "c")], .error .conflict) :=
  ⟨by decide,
   ((updateFile_succeeds_iff_hash_matches [("a.md", RemoteFile.mk "s1" "c")]
      "a.md" "x" "m" "stale").2.2 (by decide)).1⟩

/-- C3: for every remote state and path at which a file already exists,
`createFileFromString` (GitHub and Gitea adapters) fails with the
already-exists conflict regardless of the new content, and the remote
state is unchanged (strictly create-new, never upsert). -/
theorem createFile_conflict_on_existing
    (st : Remote) (path : String) (f : RemoteFile) (newContent msg : String)
    (h : st.lookup path = some f) :
    ghCreateFileFromString st path newContent msg = (st, .error .conflict) ∧
    giteaCreateFileFromString st path newContent msg = (st, .error .conflict) := by
  simp [ghCreateFileFromString, giteaCreateFileFromString, getFileSha, serverGetFile, h]

/-- Witness for C3 at a concrete remote state with an existing file. -/
theorem createFile_conflict_on_existing_witness :
    (([("p/a.md", RemoteFile.mk "s1" "c")] : Remote).lookup "p/a.md" =
      some (RemoteFile.mk "s1" "c")) ∧
    ghCreateFileFromString [("p/a.md", RemoteFile.mk "s1" "c")] "p/a.md" "new" "m" =
      ([("p/a.md", RemoteFile.mk "s1" "c")], .error .conflict) :=
  ⟨by decide,
   (createFile_conflict_on_existing [("p/a.md", RemoteFile.mk "s1" "c")] "p/a.md"
      (RemoteFile.mk "s1" "c") "new" "m" (by decide)).1⟩

/-- C7: for every response with authentication-failure status 401, both
request wrappers dispatch the process-wide `auth-error` window event (the
session-invalid signal, observable as an event) before completing, and the
operation itself ends in a thrown error rather than a result. -/
theorem authError_event_on_401
    {T : Type} (resp : HttpResponse T) (method : String) (emptyBody : T)
    (h : resp.status = 401) :
    ghMakeRequest resp method emptyBody = (["auth-error"], .error .unauthorized) ∧
    giteaMakeRequest resp method emptyBody = (["auth-error"], .error .unauthorized) := by
  simp [ghMakeRequest, giteaMakeRequest, h]

/-- Witness for C7 at a concrete 401 response. -/
theorem authError_event_on_401_witness :
    (HttpResponse.mk 401 (.ok ()) : HttpResponse Unit).status = 401 ∧
    ghMakeRequest (HttpResponse.mk 401 (.ok ()) : HttpResponse Unit) "GET" () =
      (["auth-error"], .error .unauthorized) :=
  ⟨rfl, (authError_event_on_401 (HttpResponse.mk 401 (.ok ())) "GET" () rfl).1⟩

/-- C6: for every recursive-tree response whose `truncated` flag is true,
`listFiles` (GitHub and Gitea adapters) still returns the processed
(possibly incomplete) file-entry list to the caller, surfacing the
truncation only as a console warning, never as an error or a fallback. -/
theorem listFiles_truncated_is_soft_warning
    (path : String) (detailsRes : Except GitErr RepoInfo)
    (treeOf : String → Except GitErr TreeResponse)
    (contentsRes : Except GitErr (List ContentInfo))
    (repo : RepoInfo) (resp : TreeResponse)
    (hd : detailsRes = .ok repo) (ht : treeOf repo.default_branch = .ok resp)
    (htr : resp.truncated = true) :
    ghListFiles path detailsRes treeOf contentsRes =
      ([ghTruncWarning], processTree path resp) ∧
    giteaListFiles path detailsRes treeOf contentsRes =
      (["Tree response truncated."], processTree path resp) := by
  subst hd
  simp [ghListFiles, giteaListFiles, ht, htr]

/-- Witness for C6 at a concrete truncated response. -/
theorem listFiles_truncated_is_soft_warning_witness :
    ((.ok (RepoInfo.mk "main") : Except GitErr RepoInfo) = .ok (RepoInfo.mk "main")) ∧
    ((fun _ => .ok (TreeResponse.mk [TreeItem.mk "a.md" "blob" "s" 1] true) :
        String → Except GitErr TreeResponse) (RepoInfo.mk "main").default_branch =
      .ok (TreeResponse.mk [TreeItem.mk "a.md" "blob" "s" 1] true)) ∧
    (TreeResponse.mk [TreeItem.mk "a.md" "blob" "s" 1] true).truncated = true ∧
    ghListFiles "" (.ok (RepoInfo.mk "main"))
      (fun _ => .ok (TreeResponse.mk [TreeItem.mk "a.md" "blob" "s" 1] true))
      (.ok []) =
      ([ghTruncWarning],
        processTree "" (TreeResponse.mk [TreeItem.mk "a.md" "blob" "s" 1] true)) :=
  ⟨rfl, rfl, rfl,
   (listFiles_truncated_is_soft_warning "" _ _ (.ok [])
      (RepoInfo.mk "main") (TreeResponse.mk [TreeItem.mk "a.md" "blob" "s" 1] true)
      rfl rfl rfl).1⟩

/-- The scan loop computes the first stripped match over the file list. -/
theorem findProductionUrlLoop_eq_findSome? (readFile : String → Except Unit String)
    (files : List ScanFile) :
    findProductionUrlLoop readFile files =
      files.findSome? fun f =>
        ((readFile f.path).toOption.bind (applyRegex f.kind)).map stripTrailingSlash := by
  induction files with
  | nil => rfl
  | cons f rest ih =>
    simp only [findProductionUrlLoop, List.findSome?_cons]
    cases hr : readFile f.path with
    | error e => simp [Except.toOption, ih]
    | ok content =>
      cases hm : applyRegex f.kind content with
      | none => simp [Except.toOption, hm, ih]
      | some url => simp [Except.toOption, hm]

/-- C8: `findProductionUrl` scans the fixed priority list of configuration
files (the three Astro config files, then the YAML and TS/JS config files,
then the `package.json` homepage field), returns the first URL found with
its trailing slash stripped, silently skips every file whose read fails
(such a file contributes nothing), and returns `none` — it cannot throw,
its type is total — when no file yields a URL. -/
theorem findProductionUrl_spec (readFile : String → Except Unit String)
    (jsonHomepage : String → Option String) :
    findProductionUrl readFile jsonHomepage = findProductionUrlSpec readFile jsonHomepage ∧
    ((∀ f ∈ filesToScan, (readFile f.path).toOption.bind (applyRegex f.kind) = none) →
      pkgHomepageResult readFile jsonHomepage = none →
      findProductionUrl readFile jsonHomepage = none) := by
  constructor
  · simp [findProductionUrl, findProductionUrlSpec, findProductionUrlLoop_eq_findSome?]
  · intro hall hpkg
    have hnone : findProductionUrlLoop readFile filesToScan = none := by
      rw [findProductionUrlLoop_eq_findSome?]
      rw [List.findSome?_eq_none_iff]
      intro f hf
      simp [hall f hf]
    simp [findProductionUrl, hnone, hpkg]

/-- Witness for C8: with every read failing, the result is `none`. -/
theorem findProductionUrl_spec_witness :
    (∀ f ∈ filesToScan,
      (((fun _ => .error ()) : String → Except Unit String) f.path).toOption.bind
        (applyRegex f.kind) = none) ∧
    pkgHomepageResult (fun _ => .error ()) (fun _ => none) = none ∧
    findProductionUrl (fun _ => .error ()) (fun _ => none) = none :=
  ⟨by decide, by decide,
   (findProductionUrl_spec (fun _ => .error ()) (fun _ => none)).2 (by decide) (by decide)⟩

/-- Membership in the dedup accumulator run. -/
theorem mem_jsSetDedupGo (x : String) :
    ∀ (l : List String) (seen : List String),
      x ∈ jsSetDedupGo seen l ↔ (x ∈ l ∧ x ∉ seen) := by
  intro l
  induction l with
  | nil => intro seen; simp [jsSetDedupGo]
  | cons y ys ih =>
    intro seen
    by_cases hy : y ∈ seen
    · rw [jsSetDedupGo, if_pos hy, ih]
      constructor
      · exact fun h => ⟨List.mem_cons_of_mem y h.1, h.2⟩
      · rintro ⟨h1, h2⟩
        rcases List.mem_cons.mp h1 with rfl | h1
        · exact absurd hy h2
        · exact ⟨h1, h2⟩
    · rw [jsSetDedupGo, if_neg hy]
      by_cases hxy : x = y
      · subst hxy
        simp [hy]
      · simp only [List.mem_cons, hxy, false_or]
        rw [ih]
        simp [hxy]

/-- Deduplication preserves membership. -/
theorem mem_jsSetDedup (x : String) (l : List String) :
    x ∈ jsSetDedup l ↔ x ∈ l := by
  rw [jsSetDedup, mem_jsSetDedupGo]
  simp

/-- Sorting preserves membership. -/
theorem mem_sortPaths (lc : String → String → Int) (paths : List String)
    (preferredNames : List String) (x : String) :
    x ∈ sortPaths lc paths preferredNames ↔ x ∈ paths :=
  (List.perm_insertionSort _ paths).mem_iff

/-- The promotion step introduces no new element. -/
theorem mem_of_mem_promotePublicImages {x : String} {l : List String}
    (h : x ∈ promotePublicImages l) : x ∈ l := by
  unfold promotePublicImages at h
  rcases hidx : jsFindIndex (fun p => jsToLower p == "public/images") l with _ | i <;>
    rw [hidx] at h <;> dsimp only at h
  · exact h
  · by_cases hi : 0 < i
    · rw [if_pos hi] at h
      rcases hget : l.get? i with _ | y <;> rw [hget] at h <;> dsimp only at h
      · exact h
      · rcases List.mem_cons.mp h with rfl | h
        · exact List.get?_mem hget
        · exact (l.eraseIdx_sublist i).mem h
    · rwa [if_neg hi] at h

/-- The scan never returns the empty path: the guard of baseGitService.ts
line 78 requires a truthy (nonempty) path. -/
theorem scanDir_not_root (fc : String → Bool) :
    ∀ (fuel : Nat) (path : String) (children : List FsEntry),
      "" ∉ scanDir fc fuel path children := by
  intro fuel
  induction fuel with
  | zero => intro path children h; simp [scanDir] at h
  | succ n ih =>
    intro path children h
    simp only [scanDir, List.mem_append] at h
    rcases h with h | h
    · by_cases hc : (children.any (isMatchingFile fc) && path != "") = true
      · rw [if_pos hc] at h
        rcases List.mem_singleton.mp h with rfl
        simp at hc
      · rw [if_neg hc] at h
        exact absurd h (List.not_mem_nil "")
    · rcases List.mem_flatMap.mp h with ⟨nc, _, hmem⟩
      exact ih _ _ hmem

/-- C10: for every repository tree, neither discovery operation ever
returns the empty path: the repository root is never reported as a content
or image directory, even when the root itself directly contains matching
files. -/
theorem discovery_never_returns_root (lc : String → String → Int)
    (root : List FsEntry) :
    "" ∉ scanForContentDirectories lc root ∧ "" ∉ scanForImageDirectories lc root := by
  constructor
  · intro h
    rw [scanForContentDirectories, mem_sortPaths, mem_jsSetDedup] at h
    exact scanDir_not_root _ _ _ _ h
  · intro h
    have h2 := mem_of_mem_promotePublicImages h
    rw [mem_sortPaths, mem_jsSetDedup] at h2
    exact scanDir_not_root _ _ _ _ h2

/-- Witness for C10 at a concrete tree with matching files at the root. -/
theorem discovery_never_returns_root_witness :
    "" ∉ scanForContentDirectories lcCodepoint
        [FsEntry.file "a.md", FsEntry.dir "posts" [FsEntry.file "b.md"]] ∧
    "" ∉ scanForImageDirectories lcCodepoint
        [FsEntry.file "a.png", FsEntry.dir "img" [FsEntry.file "b.png"]] :=
  ⟨(discovery_never_returns_root lcCodepoint
      [FsEntry.file "a.md", FsEntry.dir "posts" [FsEntry.file "b.md"]]).1,
   (discovery_never_returns_root lcCodepoint
      [FsEntry.file "a.png", FsEntry.dir "img" [FsEntry.file "b.png"]]).2⟩

/-- Removing pruned directories keeps the direct-file test unchanged. -/
theorem any_isMatchingFile_removeIgnored (fc : String → Bool) :
    ∀ children : List FsEntry,
      (removeIgnored children).any (isMatchingFile fc) =
        children.any (isMatchingFile fc) := by
  intro children
  induction children with
  | nil => simp [removeIgnored]
  | cons e es ih =>
    cases e with
    | file n => simp [removeIgnored, ih]
    | dir n cs =>
      by_cases hn : jsToLower n ∈ ignoredDirs
      · simp [removeIgnored, hn, ih, isMatchingFile]
      · simp [removeIgnored, hn, ih, isMatchingFile]

/-- Removing pruned directories removes exactly what the scan skips. -/
theorem scanSubDirs_removeIgnored :
    ∀ children : List FsEntry,
      scanSubDirs (removeIgnored children) =
        (scanSubDirs children).map (fun nc => (nc.1, removeIgnored nc.2)) := by
  intro children
  induction children with
  | nil => simp [removeIgnored, scanSubDirs]
  | cons e es ih =>
    cases e with
    | file n => simp [removeIgnored, scanSubDirs, ih]
    | dir n cs =>
      by_cases hn : jsToLower n ∈ ignoredDirs
      · simp [removeIgnored, scanSubDirs, hn, ih]
      · simp [removeIgnored, scanSubDirs, hn, ih]

/-- Membership in the recursion list comes from a non-ignored directory
child. -/
theorem mem_scanSubDirs :
    ∀ (children : List FsEntry) (n : String) (cs : List FsEntry),
      (n, cs) ∈ scanSubDirs children → FsEntry.dir n cs ∈ children := by
  intro children
  induction children with
  | nil => intro n cs h; simp [scanSubDirs] at h
  | cons e es ih =>
    intro n cs h
    cases e with
    | file m => exact List.mem_cons_of_mem _ (ih n cs h)
    | dir m ds =>
      by_cases hm : ignoredDirs.contains (jsToLower m) = true
      · rw [scanSubDirs, if_pos hm] at h
        exact List.mem_cons_of_mem _ (ih n cs h)
      · rw [scanSubDirs, if_neg hm] at h
        rcases List.mem_cons.mp h with heq | h
        · rcases Prod.mk.injEq .. ▸ heq with ⟨rfl, rfl⟩
          exact List.mem_cons_self _ _
        · exact List.mem_cons_of_mem _ (ih n cs h)

/-- The scan result is invariant under removing every ignored-named
directory with its whole subtree: the scan never reads the contents of a
pruned directory and a pruned directory never qualifies. -/
theorem scanDir_removeIgnored (fc : String → Bool) :
    ∀ (fuel : Nat) (path : String) (children : List FsEntry),
      scanDir fc fuel path (removeIgnored children) = scanDir fc fuel path children := by
  intro fuel
  induction fuel with
  | zero => intro path children; rfl
  | succ n ih =>
    intro path children
    simp only [scanDir, any_isMatchingFile_removeIgnored, scanSubDirs_removeIgnored,
      List.flatMap_map]
    congr 1
    apply List.flatMap_congr
    intro nc _
    exact ih _ _

/-- Every path the scan returns is the path of a directory node that
directly contains a matching file. -/
theorem scanDir_mem_hit (fc : String → Bool) :
    ∀ (fuel : Nat) (path : String) (children : List FsEntry) (q : String),
      q ∈ scanDir fc fuel path children → DirHasDirectHit fc path children q := by
  intro fuel
  induction fuel with
  | zero => intro path children q h; simp [scanDir] at h
  | succ n ih =>
    intro path children q h
    simp only [scanDir, List.mem_append] at h
    rcases h with h | h
    · by_cases hc : (children.any (isMatchingFile fc) && path != "") = true
      · rw [if_pos hc] at h
        rcases List.mem_singleton.mp h with rfl
        rw [Bool.and_eq_true] at hc
        rcases List.any_eq_true.mp hc.1 with ⟨e, he, hm⟩
        cases e with
        | file nm => exact DirHasDirectHit.here he hm
        | dir nm cs => simp [isMatchingFile] at hm
      · rw [if_neg hc] at h
        exact absurd h (List.not_mem_nil q)
    · rcases List.mem_flatMap.mp h with ⟨nc, hnc, hmem⟩
      rcases nc with ⟨nm, cs⟩
      exact DirHasDirectHit.child (mem_scanSubDirs _ _ _ hnc) (ih _ _ _ hmem)

/-- C4: for every repository tree, `scanForContentDirectories` never reads
the contents of a directory whose lowercased name is in the ignore set
(its result does not change when every such directory is deleted with its
whole subtree), and every returned path is the path of a directory node
that directly contains at least one `.md`/`.mdx` file — matching files
that exist only in a subdirectory never qualify the parent. -/
theorem scanForContentDirectories_spec (lc : String → String → Int)
    (root : List FsEntry) :
    scanForContentDirectories lc (removeIgnored root) =
      scanForContentDirectories lc root ∧
    ∀ q ∈ scanForContentDirectories lc root,
      DirHasDirectHit isMarkdownName "" root q := by
  constructor
  · unfold scanForContentDirectories
    rw [scanDir_removeIgnored]
  · intro q hq
    rw [scanForContentDirectories, mem_sortPaths, mem_jsSetDedup] at hq
    exact scanDir_mem_hit _ _ _ _ _ hq

/-- Witness for C4: the spec scenario tree (`posts/a.md`, `posts/sub/b.md`,
`.git/config.md`): `posts` is returned and is a direct hit. -/
theorem scanForContentDirectories_spec_witness :
    "posts" ∈ scanForContentDirectories lcCodepoint
        [FsEntry.dir "posts" [FsEntry.file "a.md", FsEntry.dir "sub" [FsEntry.file "b.md"]],
         FsEntry.dir ".git" [FsEntry.file "config.md"]] ∧
    DirHasDirectHit isMarkdownName ""
      [FsEntry.dir "posts" [FsEntry.file "a.md", FsEntry.dir "sub" [FsEntry.file "b.md"]],
       FsEntry.dir ".git" [FsEntry.file "config.md"]] "posts" :=
  ⟨by decide,
   (scanForContentDirectories_spec lcCodepoint
      [FsEntry.dir "posts" [FsEntry.file "a.md", FsEntry.dir "sub" [FsEntry.file "b.md"]],
       FsEntry.dir ".git" [FsEntry.file "config.md"]]).2 "posts" (by decide)⟩

/-- A member satisfying the predicate forces `findIndex` to find one. -/
theorem jsFindIndex_some_of_mem (p : String → Bool) :
    ∀ (l : List String) (x : String), x ∈ l → p x = true →
      ∃ i, jsFindIndex p l = some i := by
  intro l
  induction l with
  | nil => intro x hx; simp at hx
  | cons y ys ih =>
    intro x hx hp
    by_cases hy : p y = true
    · exact ⟨0, by simp [jsFindIndex, hy]⟩
    · rcases List.mem_cons.mp hx with rfl | hx
      · exact absurd hp hy
      · rcases ih x hx hp with ⟨i, hi⟩
        exact ⟨i + 1, by simp [jsFindIndex, hy, hi]⟩

/-- The element at a `findIndex` result satisfies the predicate. -/
theorem jsFindIndex_get (p : String → Bool) :
    ∀ (l : List String) (i : Nat), jsFindIndex p l = some i →
      ∃ x, l.get? i = some x ∧ p x = true := by
  intro l
  induction l with
  | nil => intro i h; simp [jsFindIndex] at h
  | cons y ys ih =>
    intro i h
    by_cases hy : p y = true
    · rw [jsFindIndex, if_pos hy] at h
      injection h with h
      subst h
      exact ⟨y, rfl, hy⟩
    · rw [jsFindIndex, if_neg hy] at h
      cases hrec : jsFindIndex p ys with
      | none =>
        rw [hrec] at h
        exact Option.noConfusion h
      | some j =>
        rw [hrec] at h
        injection h with h
        subst h
        rcases ih j hrec with ⟨x, hx, hp⟩
        exact ⟨x, hx, hp⟩

/-- When some element lowercases to `public/images`, the promotion step
puts such an element at the head. -/
theorem promotePublicImages_head {l : List String}
    (hx : ∃ x ∈ l, (jsToLower x == "public/images") = true) :
    ∃ q, (promotePublicImages l).head? = some q ∧
      (jsToLower q == "public/images") = true := by
  rcases hx with ⟨x, hmem, hp⟩
  rcases jsFindIndex_some_of_mem (fun p => jsToLower p == "public/images") l x hmem hp
    with ⟨i, hidx⟩
  rcases jsFindIndex_get (fun p => jsToLower p == "public/images") l i hidx
    with ⟨y, hget, hpy⟩
  unfold promotePublicImages
  rw [hidx]
  dsimp only
  by_cases hi : 0 < i
  · rw [if_pos hi, hget]
    exact ⟨y, rfl, hpy⟩
  · rw [if_neg hi]
    have hi0 : i = 0 := by omega
    subst hi0
    cases l with
    | nil => simp at hget
    | cons a t =>
      injection hget with h
      cases h
      exact ⟨y, rfl, hpy⟩

/-- C5 counterexample: a repository holding both `Public/Images` and
`public/images` (two distinct qualifying directories).  Under the
code-point `localeCompare`, `Public/Images` sorts first, the
case-insensitive `findIndex` hits it at index 0, no promotion happens, and
the literal `public/images` is not at index 0. -/
theorem scanForImageDirectories_literal_cex :
    "public/images" ∈ scanForImageDirectories lcCodepoint
        [FsEntry.dir "Public" [FsEntry.dir "Images" [FsEntry.file "x.png"]],
         FsEntry.dir "public" [FsEntry.dir "images" [FsEntry.file "y.png"]]] ∧
    "Public/Images" ∈ scanForImageDirectories lcCodepoint
        [FsEntry.dir "Public" [FsEntry.dir "Images" [FsEntry.file "x.png"]],
         FsEntry.dir "public" [FsEntry.dir "images" [FsEntry.file "y.png"]]] ∧
    "Public/Images" ≠ "public/images" ∧
    (scanForImageDirectories lcCodepoint
        [FsEntry.dir "Public" [FsEntry.dir "Images" [FsEntry.file "x.png"]],
         FsEntry.dir "public" [FsEntry.dir "images" [FsEntry.file "y.png"]]]).head? =
      some "Public/Images" := by
  refine ⟨by decide, by decide, by decide, by decide⟩

/-- C5 (amended): whenever the returned list of `scanForImageDirectories`
contains `public/images`, the entry at index 0 is a directory whose
lowercased path equals `public/images` (the literal `public/images` itself
unless a differently-cased variant of it was also found, which can win the
case-insensitive promotion). -/
theorem scanForImageDirectories_promotes (lc : String → String → Int)
    (root : List FsEntry)
    (h : "public/images" ∈ scanForImageDirectories lc root) :
    ∃ q, (scanForImageDirectories lc root).head? = some q ∧
      jsToLower q = "public/images" := by
  have hmem : "public/images" ∈
      sortPaths lc (jsSetDedup (scanDir isImageName 4 "" root))
        ["images", "assets", "static", "public"] :=
    mem_of_mem_promotePublicImages h
  rcases promotePublicImages_head ⟨"public/images", hmem, by decide⟩ with ⟨q, hq, hlow⟩
  exact ⟨q, hq, (beq_iff_eq ..).mp hlow⟩

/-- Witness for C5 (amended) on a repository where only the literal
`public/images` qualifies. -/
theorem scanForImageDirectories_promotes_witness :
    "public/images" ∈ scanForImageDirectories lcCodepoint
        [FsEntry.dir "img" [FsEntry.file "b.png"],
         FsEntry.dir "public" [FsEntry.dir "images" [FsEntry.file "a.png"]]] ∧
    ∃ q, (scanForImageDirectories lcCodepoint
        [FsEntry.dir "img" [FsEntry.file "b.png"],
         FsEntry.dir "public" [FsEntry.dir "images" [FsEntry.file "a.png"]]]).head? =
          some q ∧ jsToLower q = "public/images" :=
  ⟨by decide,
   scanForImageDirectories_promotes lcCodepoint
      [FsEntry.dir "img" [FsEntry.file "b.png"],
       FsEntry.dir "public" [FsEntry.dir "images" [FsEntry.file "a.png"]]] (by decide)⟩

/-- The base64 alphabet index inverts the character table below 64. -/
theorem b64_char_inv : ∀ n, n < 64 → charToSix (sixToChar n) = n := by decide

/-- No alphabet character is the padding character. -/
theorem sixToChar_ne_pad : ∀ n, n < 64 → sixToChar n ≠ '=' := by decide

/-- Reading the code point back from a character made of a byte. -/
theorem toNat_ofNat_byte (b : Nat) (h : b < 256) : (Char.ofNat b).toNat = b := by
  unfold Char.ofNat
  rw [dif_pos (Or.inl (by omega : b < 0xD800) : b.isValidChar)]
  rfl

/-- The binary-string round trip is the identity on bytes. -/
theorem binaryToBytes_bytesToBinary (bs : List Nat) (h : ∀ b ∈ bs, b < 256) :
    binaryToBytes (bytesToBinary bs) = bs := by
  unfold binaryToBytes bytesToBinary
  rw [List.map_map]
  induction bs with
  | nil => rfl
  | cons b rest ih =>
    rw [List.map_cons]
    rw [ih (fun x hx => h x (List.mem_cons_of_mem _ hx))]
    simp only [Function.comp_apply, List.cons.injEq, and_true]
    exact toNat_ofNat_byte b (h b (List.mem_cons_self _ _))

/-- Base64 decoding inverts base64 encoding on byte lists. -/
theorem b64_roundtrip (bs : List Nat) (hb : ∀ b ∈ bs, b < 256) :
    b64DecodeChars (b64EncodeBytes bs) = some bs := by
  have main : ∀ (n : Nat) (bs : List Nat), bs.length ≤ n → (∀ b ∈ bs, b < 256) →
      b64DecodeChars (b64EncodeBytes bs) = some bs := by
    intro n
    induction n with
    | zero =>
      intro bs hlen _
      have hnil : bs = [] := List.length_eq_zero.mp (Nat.le_zero.mp hlen)
      subst hnil
      rfl
    | succ n ih =>
      intro bs hlen hb
      match bs with
      | [] => rfl
      | [b1] =>
        have h1 : b1 < 256 := hb b1 (by simp)
        have e1 : charToSix (sixToChar (b1 / 4)) = b1 / 4 := b64_char_inv _ (by omega)
        have e2 : charToSix (sixToChar (b1 % 4 * 16)) = b1 % 4 * 16 :=
          b64_char_inv _ (by omega)
        show b64DecodeChars
            [sixToChar (b1 / 4), sixToChar (b1 % 4 * 16), '=', '='] = some [b1]
        rw [b64DecodeChars.eq_def]
        dsimp only
        rw [if_pos ⟨rfl, rfl⟩, if_pos rfl, e1, e2, if_pos (by omega),
          show b1 / 4 * 4 + b1 % 4 * 16 / 16 = b1 from by omega]
      | [b1, b2] =>
        have h1 : b1 < 256 := hb b1 (by simp)
        have h2 : b2 < 256 := hb b2 (by simp)
        have e1 : charToSix (sixToChar (b1 / 4)) = b1 / 4 := b64_char_inv _ (by omega)
        have e2 : charToSix (sixToChar (b1 % 4 * 16 + b2 / 16)) = b1 % 4 * 16 + b2 / 16 :=
          b64_char_inv _ (by omega)
        have e3 : charToSix (sixToChar (b2 % 16 * 4)) = b2 % 16 * 4 :=
          b64_char_inv _ (by omega)
        show b64DecodeChars
            [sixToChar (b1 / 4), sixToChar (b1 % 4 * 16 + b2 / 16),
             sixToChar (b2 % 16 * 4), '='] = some [b1, b2]
        rw [b64DecodeChars.eq_def]
        dsimp only
        rw [if_pos ⟨rfl, rfl⟩, if_neg (sixToChar_ne_pad _ (by omega)), e1, e2, e3,
          if_pos (by omega),
          show b1 / 4 * 4 + (b1 % 4 * 16 + b2 / 16) / 16 = b1 from by omega,
          show (b1 % 4 * 16 + b2 / 16) % 16 * 16 + b2 % 16 * 4 / 4 = b2 from by omega]
      | b1 :: b2 :: b3 :: rest =>
        have h1 : b1 < 256 := hb b1 (by simp)
        have h2 : b2 < 256 := hb b2 (by simp)
        have h3 : b3 < 256 := hb b3 (by simp)
        have hrest : ∀ b ∈ rest, b < 256 := fun b hm => hb b (by simp [hm])
        have hlen2 : rest.length ≤ n := by
          simp only [List.length_cons] at hlen
          omega
        have e1 : charToSix (sixToChar (b1 / 4)) = b1 / 4 := b64_char_inv _ (by omega)
        have e2 : charToSix (sixToChar (b1 % 4 * 16 + b2 / 16)) = b1 % 4 * 16 + b2 / 16 :=
          b64_char_inv _ (by omega)
        have e3 : charToSix (sixToChar (b2 % 16 * 4 + b3 / 64)) = b2 % 16 * 4 + b3 / 64 :=
          b64_char_inv _ (by omega)
        have e4 : charToSix (sixToChar (b3 % 64)) = b3 % 64 := b64_char_inv _ (by omega)
        have hne : ¬(b64EncodeBytes rest = [] ∧ sixToChar (b3 % 64) = '=') :=
          fun hcon => sixToChar_ne_pad _ (by omega) hcon.2
        show b64DecodeChars
            (sixToChar (b1 / 4) :: sixToChar (b1 % 4 * 16 + b2 / 16) ::
              sixToChar (b2 % 16 * 4 + b3 / 64) :: sixToChar (b3 % 64) ::
              b64EncodeBytes rest) = some (b1 :: b2 :: b3 :: rest)
        rw [b64DecodeChars.eq_def]
        dsimp only
        rw [if_neg hne, e1, e2, e3, e4, if_pos (by omega), ih rest hlen2 hrest]
        dsimp only
        rw [show b1 / 4 * 4 + (b1 % 4 * 16 + b2 / 16) / 16 = b1 from by omega,
          show (b1 % 4 * 16 + b2 / 16) % 16 * 16 + (b2 % 16 * 4 + b3 / 64) / 4 = b2
            from by omega,
          show (b2 % 16 * 4 + b3 / 64) % 4 * 64 + b3 % 64 = b3 from by omega]
  exact main bs.length bs (le_refl _) hb

/-- The bytes UTF-8 encoding emits are bytes. -/
theorem utf8EncodeChar_bytes (c : Char) : ∀ b ∈ utf8EncodeChar c, b < 256 := by
  have hv : c.toNat < 0xD800 ∨ (0xDFFF < c.toNat ∧ c.toNat < 0x110000) := c.valid
  intro b hm
  unfold utf8EncodeChar at hm
  by_cases h1 : c.toNat < 0x80
  · rw [if_pos h1] at hm
    simp only [List.mem_singleton] at hm
    omega
  · rw [if_neg h1] at hm
    by_cases h2 : c.toNat < 0x800
    · rw [if_pos h2] at hm
      rcases List.mem_cons.mp hm with rfl | hm
      · omega
      · simp only [List.mem_singleton] at hm
        omega
    · rw [if_neg h2] at hm
      by_cases h3 : c.toNat < 0x10000
      · rw [if_pos h3] at hm
        rcases List.mem_cons.mp hm with rfl | hm
        · omega
        · rcases List.mem_cons.mp hm with rfl | hm
          · omega
          · simp only [List.mem_singleton] at hm
            omega
      · rw [if_neg h3] at hm
        rcases List.mem_cons.mp hm with rfl | hm
        · omega
        · rcases List.mem_cons.mp hm with rfl | hm
          · omega
          · rcases List.mem_cons.mp hm with rfl | hm
            · omega
            · simp only [List.mem_singleton] at hm
              omega

/-- All bytes of a UTF-8 encoded string are bytes. -/
theorem utf8Encode_bytes (cs : List Char) : ∀ b ∈ utf8Encode cs, b < 256 := by
  intro b hm
  rcases List.mem_flatMap.mp hm with ⟨c, _, hmc⟩
  exact utf8EncodeChar_bytes c b hmc

/-- Decoding steps over one encoded character. -/
theorem utf8Decode_encodeChar (c : Char) (rest : List Nat) :
    utf8Decode (utf8EncodeChar c ++ rest) =
      (utf8Decode rest).map (fun cs => c :: cs) := by
  have hv : c.toNat < 0xD800 ∨ (0xDFFF < c.toNat ∧ c.toNat < 0x110000) := c.valid
  unfold utf8EncodeChar
  by_cases h1 : c.toNat < 0x80
  · rw [if_pos h1]
    simp only [List.cons_append, List.nil_append]
    rw [utf8Decode.eq_def]
    dsimp only
    rw [if_pos h1, Char.ofNat_toNat]
  · rw [if_neg h1]
    by_cases h2 : c.toNat < 0x800
    · rw [if_pos h2]
      simp only [List.cons_append, List.nil_append]
      rw [utf8Decode.eq_def]
      dsimp only
      rw [if_neg (by omega), if_neg (by omega), if_pos (by omega)]
      rw [utf8DecodeTail2.eq_def]
      dsimp only
      rw [if_pos (by simp only [isCont, Bool.and_eq_true, decide_eq_true_eq]; omega)]
      rw [show (0xC0 + c.toNat / 64 - 0xC0) * 64 + (0x80 + c.toNat % 64 - 0x80) = c.toNat
        from by omega]
      rw [Char.ofNat_toNat]
    · by_cases h3 : c.toNat < 0x10000
      · rw [if_neg h2, if_pos h3]
        simp only [List.cons_append, List.nil_append]
        rw [utf8Decode.eq_def]
        dsimp only
        rw [if_neg (by omega), if_neg (by omega), if_neg (by omega), if_pos (by omega)]
        rw [utf8DecodeTail3.eq_def]
        dsimp only
        rw [if_pos (by
          simp only [isCont, Bool.and_eq_true, decide_eq_true_eq]
          omega)]
        rw [show (0xE0 + c.toNat / 4096 - 0xE0) * 4096 +
            (0x80 + c.toNat / 64 % 64 - 0x80) * 64 + (0x80 + c.toNat % 64 - 0x80) = c.toNat
          from by omega]
        rw [Char.ofNat_toNat]
      · rw [if_neg h2, if_neg h3]
        simp only [List.cons_append, List.nil_append]
        rw [utf8Decode.eq_def]
        dsimp only
        rw [if_neg (by omega), if_neg (by omega), if_neg (by omega), if_neg (by omega),
          if_pos (by omega)]
        rw [utf8DecodeTail4.eq_def]
        dsimp only
        rw [if_pos (by
          simp only [isCont, Bool.and_eq_true, decide_eq_true_eq]
          omega)]
        rw [show (0xF0 + c.toNat / 262144 - 0xF0) * 262144 +
            (0x80 + c.toNat / 4096 % 64 - 0x80) * 4096 +
            (0x80 + c.toNat / 64 % 64 - 0x80) * 64 + (0x80 + c.toNat % 64 - 0x80) = c.toNat
          from by omega]
        rw [Char.ofNat_toNat]

/-- UTF-8 decoding inverts UTF-8 encoding on character lists. -/
theorem utf8_roundtrip (cs : List Char) : utf8Decode (utf8Encode cs) = some cs := by
  induction cs with
  | nil => rfl
  | cons c rest ih =>
    have : utf8Encode (c :: rest) = utf8EncodeChar c ++ utf8Encode rest := by
      simp [utf8Encode]
    rw [this, utf8Decode_encodeChar, ih]
    rfl

/-- C9: round trip of the write-path encoding and the read-path decoding:
for every Unicode string `s`, the decoding performed by `getFileContent`
(base64 to bytes, then UTF-8 decode) applied to `base64Encode s` (the
encoding used by `createFileFromString` and `updateFileContent`) returns
`s`. -/
theorem encode_decode_roundtrip (s : String) :
    decodeBase64Utf8 (base64Encode s) = some s := by
  have hbytes : ∀ b ∈ utf8Encode s.data, b < 256 := utf8Encode_bytes s.data
  unfold base64Encode decodeBase64Utf8
  rw [show (String.mk (b64EncodeBytes (binaryToBytes
        (bytesToBinary (utf8Encode s.data))))).data =
      b64EncodeBytes (binaryToBytes (bytesToBinary (utf8Encode s.data))) from rfl]
  rw [binaryToBytes_bytesToBinary _ hbytes]
  rw [b64_roundtrip _ hbytes]
  dsimp only
  rw [binaryToBytes_bytesToBinary _ hbytes]
  rw [utf8_roundtrip]

/-- The characters of a joined multi-segment path split at the first
separator. -/
theorem joinSegs_cons_data (s t : String) (rest : List String) :
    (joinSegs (s :: t :: rest)).data = s.data ++ '/' :: (joinSegs (t :: rest)).data := by
  show (s ++ "/" ++ joinSegs (t :: rest)).data = _
  rw [String.data_append, String.data_append]
  simp [List.append_assoc]

/-- Cancellation of slash-free tokens before a separator: if two token
prefixes agree, the tokens agree. -/
theorem slash_token_cancel (u v : List Char) :
    ∀ (xs ys : List Char), '/' ∉ xs → '/' ∉ ys →
      (xs ++ '/' :: u) <+: (ys ++ '/' :: v) → xs = ys ∧ u <+: v := by
  intro xs
  induction xs with
  | nil =>
    intro ys hx hy h
    cases ys with
    | nil =>
      rw [List.nil_append, List.nil_append] at h
      exact ⟨rfl, (List.cons_prefix_cons.mp h).2⟩
    | cons y ys2 =>
      rw [List.nil_append, List.cons_append] at h
      rcases List.cons_prefix_cons.mp h with ⟨heq, _⟩
      exact absurd (heq ▸ List.mem_cons_self y ys2) hy
  | cons x xs2 ih =>
    intro ys hx hy h
    cases ys with
    | nil =>
      rw [List.cons_append, List.nil_append] at h
      rcases List.cons_prefix_cons.mp h with ⟨heq, _⟩
      exact absurd (heq ▸ List.mem_cons_self x xs2) hx
    | cons y ys2 =>
      rw [List.cons_append, List.cons_append] at h
      rcases List.cons_prefix_cons.mp h with ⟨heq, h2⟩
      rcases ih ys2 (fun hm => hx (List.mem_cons_of_mem _ hm))
        (fun hm => hy (List.mem_cons_of_mem _ hm)) h2 with ⟨hs, hp⟩
      exact ⟨by rw [heq, hs], hp⟩

/-- A well-formed joined path has at least one character. -/
theorem joinSegs_data_ne (p : List String) (hne : p ≠ []) (hw : ∀ s ∈ p, goodSeg s) :
    (joinSegs p).data ≠ [] := by
  cases p with
  | nil => exact absurd rfl hne
  | cons a p2 =>
    cases p2 with
    | nil =>
      intro hd
      exact (hw a (List.mem_cons_self a [])).1 (String.ext hd)
    | cons b p3 =>
      rw [joinSegs_cons_data]
      intro hd
      simp at hd

/-- Joining an extended segment list splits after the join of the base. -/
theorem joinSegs_append_data (p : List String) (z : String) (w : List String)
    (hne : p ≠ []) :
    (joinSegs (p ++ z :: w)).data =
      (joinSegs p).data ++ '/' :: (joinSegs (z :: w)).data := by
  induction p with
  | nil => exact absurd rfl hne
  | cons a p2 ih =>
    cases p2 with
    | nil =>
      rw [List.cons_append, List.nil_append, joinSegs_cons_data]
      rfl
    | cons b p3 =>
      have ih2 := ih (by simp)
      rw [List.cons_append] at ih2
      rw [List.cons_append, List.cons_append, joinSegs_cons_data a b (p3 ++ z :: w), ih2,
        joinSegs_cons_data a b p3]
      simp [List.append_assoc]

/-- A slash-terminated join prefix forces a proper segment extension. -/
theorem prefix_joinSegs :
    ∀ (p segs : List String), p ≠ [] → (∀ s ∈ p, goodSeg s) → (∀ s ∈ segs, goodSeg s) →
      (joinSegs p).data ++ ['/'] <+: (joinSegs segs).data →
      ∃ z w, segs = p ++ z :: w := by
  intro p
  induction p with
  | nil => intro segs h; exact absurd rfl h
  | cons a p2 ih =>
    intro segs _ hwp hws h
    cases segs with
    | nil =>
      exfalso
      have := List.prefix_nil.mp h
      simp at this
    | cons s segs2 =>
      cases p2 with
      | nil =>
        cases segs2 with
        | nil =>
          exfalso
          have hmem : '/' ∈ s.data := h.sublist.subset (by simp)
          exact (hws s (by simp)).2 hmem
        | cons t w =>
          rw [joinSegs_cons_data] at h
          have h2 : (joinSegs [a]).data ++ '/' :: ([] : List Char) <+:
              s.data ++ '/' :: (joinSegs (t :: w)).data := by
            simpa using h
          rcases slash_token_cancel [] (joinSegs (t :: w)).data (joinSegs [a]).data s.data
            ((hwp a (by simp)).2) ((hws s (by simp)).2) h2 with ⟨hs, _⟩
          refine ⟨t, w, ?_⟩
          rw [show s = a from (String.ext hs).symm]
          rfl
      | cons b p3 =>
        cases segs2 with
        | nil =>
          exfalso
          rw [joinSegs_cons_data] at h
          have hmem : '/' ∈ s.data := h.sublist.subset (by simp)
          exact (hws s (by simp)).2 hmem
        | cons t w =>
          rw [joinSegs_cons_data, joinSegs_cons_data] at h
          have h2 : a.data ++ '/' :: ((joinSegs (b :: p3)).data ++ ['/']) <+:
              s.data ++ '/' :: (joinSegs (t :: w)).data := by
            simpa [List.append_assoc] using h
          rcases slash_token_cancel ((joinSegs (b :: p3)).data ++ ['/'])
            (joinSegs (t :: w)).data a.data s.data
            ((hwp a (by simp)).2) ((hws s (by simp)).2) h2 with ⟨has, hpre⟩
          rcases ih (t :: w) (by simp)
            (fun q hq => hwp q (List.mem_cons_of_mem _ hq))
            (fun q hq => hws q (List.mem_cons_of_mem _ hq)) hpre with ⟨z, w2, hzw⟩
          refine ⟨z, w2, ?_⟩
          rw [List.cons_append, ← hzw, show s = a from (String.ext has).symm]

/-- A one-element suffix only depends on the nonempty right part. -/
theorem single_suffix_append (c : Char) (l₁ l₂ : List Char) (h : l₂ ≠ []) :
    ([c] <:+ (l₁ ++ l₂)) ↔ ([c] <:+ l₂) := by
  rw [← List.reverse_prefix, ← List.reverse_prefix]
  rw [List.reverse_append]
  cases hrev : l₂.reverse with
  | nil => exact absurd (by simpa using hrev) h
  | cons r rs =>
    rw [List.cons_append]
    simp only [List.reverse_cons, List.reverse_nil, List.nil_append]
    constructor
    · intro hp
      exact List.cons_prefix_cons.mpr
        ⟨(List.cons_prefix_cons.mp hp).1, List.nil_prefix⟩
    · intro hp
      exact List.cons_prefix_cons.mpr
        ⟨(List.cons_prefix_cons.mp hp).1, List.nil_prefix⟩

/-- A well-formed joined path never ends in a separator. -/
theorem not_slash_suffix_joinSegs :
    ∀ (p : List String), p ≠ [] → (∀ s ∈ p, goodSeg s) →
      ¬(['/'] <:+ (joinSegs p).data) := by
  intro p
  induction p with
  | nil => intro h; exact absurd rfl h
  | cons a p2 ih =>
    intro _ hw h
    cases p2 with
    | nil =>
      have hmem : '/' ∈ a.data := h.sublist.subset (by simp)
      exact (hw a (by simp)).2 hmem
    | cons b p3 =>
      rw [joinSegs_cons_data] at h
      have hne2 : (joinSegs (b :: p3)).data ≠ [] :=
        joinSegs_data_ne (b :: p3) (by simp)
          (fun q hq => hw q (List.mem_cons_of_mem _ hq))
      have h2 : ['/'] <:+ ('/' :: (joinSegs (b :: p3)).data) :=
        (single_suffix_append '/' a.data _ (by simp)).mp h
      have h3 : ['/'] <:+ (joinSegs (b :: p3)).data := by
        have := (single_suffix_append '/' ['/'] _ hne2)
        rw [List.singleton_append] at this
        exact this.mp h2
      exact ih (by simp) (fun q hq => hw q (List.mem_cons_of_mem _ hq)) h3

/-- The JS prefix test is list prefixing on the characters. -/
theorem jsStartsWith_iff (s pre : String) :
    jsStartsWith s pre = true ↔ pre.data <+: s.data := by
  unfold jsStartsWith
  exact List.isPrefixOf_iff_prefix

/-- A nonempty well-formed join gets a trailing separator appended by the
scope normalization. -/
theorem normalizeScopePath_joinSegs (p : List String) (hne : p ≠ [])
    (hw : ∀ s ∈ p, goodSeg s) :
    normalizeScopePath (joinSegs p) = joinSegs p ++ "/" := by
  have hdata : (joinSegs p).data ≠ [] := joinSegs_data_ne p hne hw
  have hne2 : joinSegs p ≠ "" := fun hc => hdata (by rw [hc])
  have hsuf : jsEndsWith (joinSegs p) "/" = false := by
    rw [Bool.eq_false_iff]
    intro hc
    exact not_slash_suffix_joinSegs p hne hw
      (List.isSuffixOf_iff_suffix.mp hc)
  unfold normalizeScopePath
  rw [if_pos (by simpa using hne2), if_neg (by rw [hsuf]; exact Bool.false_ne_true)]

/-- The single-child test of the contents model characterizes direct
children. -/
theorem stripSegs_single (p segs : List String) (n : String) :
    stripSegs p segs = some [n] ↔ segs = p ++ [n] := by
  unfold stripSegs
  by_cases hp : p.isPrefixOf segs
  · rw [if_pos hp]
    have hpre := List.isPrefixOf_iff_prefix.mp hp
    constructor
    · intro h
      injection h with h
      have := List.prefix_iff_eq_append.mp hpre
      rw [h] at this
      exact this.symm
    · intro h
      subst h
      rw [List.drop_left]
  · rw [if_neg hp]
    constructor
    · intro h
      exact Option.noConfusion h
    · intro h
      subst h
      exact absurd (List.isPrefixOf_iff_prefix.mpr (List.prefix_append p [n])) hp

/-- Membership in the file paths of a listing. -/
theorem mem_filePaths (items : List RepoTreeInfo) (x : String) :
    x ∈ filePaths items ↔ ∃ it ∈ items, it.type = EntryKind.file ∧ it.path = x := by
  unfold filePaths
  simp only [List.mem_map, List.mem_filter, beq_iff_eq]
  constructor
  · rintro ⟨it, ⟨hmem, hty⟩, hpath⟩
    exact ⟨it, hmem, hty, hpath⟩
  · rintro ⟨it, hmem, hty, hpath⟩
    exact ⟨it, ⟨hmem, hty⟩, hpath⟩

/-- Membership in the fast-path file set: exactly the repository files
passing the scope prefix test. -/
theorem mem_fast_filePaths (repo : RepoFiles) (p : List String) (x : String) :
    x ∈ filePaths (fastListFiles repo p) ↔
      ∃ segs ∈ repo,
        ((normalizeScopePath (joinSegs p) == "") ||
          jsStartsWith (joinSegs segs) (normalizeScopePath (joinSegs p))) = true ∧
        x = joinSegs segs := by
  rw [show fastListFiles repo p = processTree (joinSegs p) (treeOfRepo repo) from rfl]
  unfold processTree treeOfRepo
  rw [mem_filePaths]
  constructor
  · rintro ⟨it, hit, hty, hpath⟩
    rcases List.mem_map.mp hit with ⟨item, hitem, hgi⟩
    rcases List.mem_filter.mp hitem with ⟨hmemtree, hpred⟩
    rcases List.mem_map.mp hmemtree with ⟨segs, hsegs, hblob⟩
    subst hblob
    subst hgi
    simp only [Bool.and_eq_true] at hpred
    exact ⟨segs, hsegs, hpred.2, hpath.symm⟩
  · rintro ⟨segs, hsegs, hpred, hx⟩
    refine ⟨_, List.mem_map.mpr
      ⟨_, List.mem_filter.mpr ⟨List.mem_map.mpr ⟨segs, hsegs, rfl⟩, ?_⟩, rfl⟩,
      rfl, hx.symm⟩
    simp only [Bool.and_eq_true]
    exact ⟨rfl, hpred⟩

/-- Membership in the fallback file set: exactly the direct child files. -/
theorem mem_fallback_filePaths (repo : RepoFiles) (p : List String) (x : String) :
    x ∈ filePaths (fallbackListFiles repo p) ↔
      ∃ segs ∈ repo, (∃ n, segs = p ++ [n]) ∧ x = joinSegs segs := by
  rw [show fallbackListFiles repo p = (contentsOfRepo repo p).map toRepoTreeInfo from rfl]
  unfold contentsOfRepo
  rw [mem_filePaths]
  constructor
  · rintro ⟨it, hmem, hty, hpath⟩
    rcases List.mem_map.mp hmem with ⟨ci, hci, hci_it⟩
    rcases List.mem_append.mp hci with hfile | hdir
    · rcases List.mem_filterMap.mp hfile with ⟨segs, hsegs, hmatch⟩
      rcases hstrip : stripSegs p segs with _ | tail
      · rw [hstrip] at hmatch
        exact absurd hmatch (by simp)
      · rw [hstrip] at hmatch
        match tail, hmatch with
        | [n], hmatch =>
          have hci_eq : ci = ⟨n, joinSegs segs, .file, mkSha (joinSegs segs), 0⟩ := by
            cases hmatch
            rfl
          refine ⟨segs, hsegs, ⟨n, (stripSegs_single p segs n).mp hstrip⟩, ?_⟩
          subst hci_eq
          subst hci_it
          exact hpath.symm
    · exfalso
      rcases List.mem_map.mp hdir with ⟨nm, _, hnm⟩
      subst hnm
      subst hci_it
      exact EntryKind.noConfusion hty
  · rintro ⟨segs, hsegs, ⟨n, hn⟩, hx⟩
    refine ⟨toRepoTreeInfo ⟨n, joinSegs segs, .file, mkSha (joinSegs segs), 0⟩,
      List.mem_map.mpr ⟨⟨n, joinSegs segs, .file, mkSha (joinSegs segs), 0⟩,
        List.mem_append.mpr (Or.inl (List.mem_filterMap.mpr
          ⟨segs, hsegs, ?_⟩)), rfl⟩, rfl, hx.symm⟩
    rw [(stripSegs_single p segs n).mpr hn]

/-- C2 counterexample: in a repository with files `d/sub/f.md` and
`d/a.md`, listing directory `d` with the (untruncated) fast path returns
the nested file path `d/sub/f.md`, while the fallback (one shallow
contents listing) does not: the two paths do not return the same set of
file paths for a directory with a nonempty subdirectory. -/
theorem listFiles_fast_fallback_cex :
    (treeOfRepo [["d", "sub", "f.md"], ["d", "a.md"]]).truncated = false ∧
    "d/sub/f.md" ∈
      filePaths (fastListFiles [["d", "sub", "f.md"], ["d", "a.md"]] ["d"]) ∧
    "d/sub/f.md" ∉
      filePaths (fallbackListFiles [["d", "sub", "f.md"], ["d", "a.md"]] ["d"]) :=
  ⟨rfl, by decide, by decide⟩

/-- C2 (amended): for every well-formed repository and directory, when
every file under the directory is one of its direct children (no file lies
in a proper subdirectory of it), `listFiles` via the untruncated fast path
and via the fallback return the same set of file paths.  (With nested
files the fallback is a strict subset, per spec section 4.3.) -/
theorem listFiles_fast_fallback_agree (repo : RepoFiles) (p : List String)
    (hwr : wfRepo repo) (hwp : ∀ s ∈ p, goodSeg s)
    (hdirect : ∀ segs ∈ repo, ∀ z w, segs = p ++ z :: w → w = []) :
    ∀ x, x ∈ filePaths (fastListFiles repo p) ↔
      x ∈ filePaths (fallbackListFiles repo p) := by
  intro x
  rw [mem_fast_filePaths, mem_fallback_filePaths]
  by_cases hp : p = []
  · subst hp
    constructor
    · rintro ⟨segs, hsegs, _, hx⟩
      have hw := hwr segs hsegs
      cases segs with
      | nil => exact absurd rfl hw.1
      | cons z w =>
        have hw0 : w = [] := hdirect (z :: w) hsegs z w rfl
        subst hw0
        exact ⟨[z], hsegs, ⟨z, rfl⟩, hx⟩
    · rintro ⟨segs, hsegs, ⟨n, hn⟩, hx⟩
      refine ⟨segs, hsegs, ?_, hx⟩
      rw [Bool.or_eq_true]
      exact Or.inl (by decide)
  · have hnorm := normalizeScopePath_joinSegs p hp hwp
    constructor
    · rintro ⟨segs, hsegs, hpred, hx⟩
      simp only [Bool.or_eq_true] at hpred
      rcases hpred with h0 | h1
      · exfalso
        rw [hnorm] at h0
        have heq := (beq_iff_eq ..).mp h0
        have hd : (joinSegs p ++ "/").data = ("" : String).data := by rw [heq]
        rw [String.data_append] at hd
        simp at hd
      · rw [hnorm] at h1
        have hpre : (joinSegs p).data ++ ['/'] <+: (joinSegs segs).data := by
          have := (jsStartsWith_iff ..).mp h1
          rwa [String.data_append] at this
        rcases prefix_joinSegs p segs hp hwp
          (fun q hq => (hwr segs hsegs).2 q hq) hpre with ⟨z, w, hzw⟩
        have hw0 : w = [] := hdirect segs hsegs z w hzw
        subst hw0
        exact ⟨segs, hsegs, ⟨z, hzw⟩, hx⟩
    · rintro ⟨segs, hsegs, ⟨n, hn⟩, hx⟩
      refine ⟨segs, hsegs, ?_, hx⟩
      rw [Bool.or_eq_true]
      right
      rw [hnorm, jsStartsWith_iff, String.data_append,
        show ("/" : String).data = ['/'] from rfl, hn,
        joinSegs_append_data p n [] hp]
      exact ⟨(joinSegs [n]).data, by simp [List.append_assoc]⟩

/-- Witness for C2 (amended) on a repository whose directory `posts` has
only direct children. -/
theorem listFiles_fast_fallback_agree_witness :
    wfRepo [["posts", "a.md"], ["posts", "b.md"]] ∧
    (∀ s ∈ (["posts"] : List String), goodSeg s) ∧
    ("posts/a.md" ∈
        filePaths (fastListFiles [["posts", "a.md"], ["posts", "b.md"]] ["posts"]) ↔
      "posts/a.md" ∈
        filePaths (fallbackListFiles [["posts", "a.md"], ["posts", "b.md"]] ["posts"])) :=
  ⟨by decide, by decide,
   listFiles_fast_fallback_agree [["posts", "a.md"], ["posts", "b.md"]] ["posts"]
     (by decide) (by decide)
     (by
       intro segs hsegs z w heq
       rcases List.mem_cons.mp hsegs with rfl | hsegs2
       · injection heq with h1 h2
         injection h2 with h3 h4
         exact h4.symm
       · rcases List.mem_cons.mp hsegs2 with rfl | habs
         · injection heq with h1 h2
           injection h2 with h3 h4
           exact h4.symm
         · simp at habs)
     "posts/a.md"⟩

end AstroCM
